import Mathlib

/-!
# A CSR sparse-matrix storage engine, verified

The repository's source is a tutorial notebook (`Basics-3-Scipy.ipynb`) that
exercises a sparse-matrix engine (COO / LIL builders, CSR / CSC stores,
conversions, matrix product, element-wise product) through a numerical
library; the engine itself ships with that library, not with the repository.
This development embeds the engine as specified — values are integers, a
concrete instance of the spec's generic ring-like value type — and proves the
spec's testable properties against the embedding.  The notebook's concrete
4×4 example and its recorded outputs are reproduced and checked.
-/

namespace Sparse

/-- Modelled from the spec: the error signals of §7 (the engine itself is not
in the repository's sources).  `indexError` for out-of-bounds coordinates,
`dimensionMismatch` for incompatible shapes, `invalidFormat` for malformed
raw arrays. -/
inductive SparseError where
  | indexError
  | dimensionMismatch
  | invalidFormat
deriving DecidableEq, Repr

/-- First value stored under key `x` in an association list keyed by column
(or row), if any: the linear scan of §4.3. -/
def alfind : List (Nat × Int) → Nat → Option Int
  | [], _ => none
  | (c, v) :: rest, x => if x = c then some v else alfind rest x

/-- Stored value under key `x`, or the additive identity when absent. -/
def alget (l : List (Nat × Int)) (x : Nat) : Int :=
  (alfind l x).getD 0

/-- The keys (column indices) of an association list. -/
def keys (l : List (Nat × Int)) : List Nat := l.map Prod.fst

/-- Keys are strictly ascending: unique and sorted. -/
def keySorted (l : List (Nat × Int)) : Prop :=
  List.Pairwise (fun p q => p.1 < q.1) l

instance (l : List (Nat × Int)) : Decidable (keySorted l) :=
  inferInstanceAs (Decidable (List.Pairwise (fun p q : Nat × Int => p.1 < q.1) l))

/-- Modelled from the spec: sorted insertion into a sparse row accumulator,
summing the incoming value with a stored value that shares its column
(§4.1 (b)/(c): duplicates merge by summation, columns stay ascending). -/
def insertSum (c : Nat) (v : Int) : List (Nat × Int) → List (Nat × Int)
  | [] => [(c, v)]
  | (d, w) :: rest =>
    if c = d then (d, w + v) :: rest
    else if c < d then (c, v) :: (d, w) :: rest
    else (d, w) :: insertSum c v rest

/-- Modelled from the spec: sorted insert-or-overwrite for the LIL builder
(§4.2 `set`; the explicit-zero policy choice: a zero is stored explicitly). -/
def insertSet (c : Nat) (v : Int) : List (Nat × Int) → List (Nat × Int)
  | [] => [(c, v)]
  | (d, w) :: rest =>
    if c = d then (c, v) :: rest
    else if c < d then (c, v) :: (d, w) :: rest
    else (d, w) :: insertSet c v rest

/-- Compile a bag of (column, value) contributions into a sorted,
duplicate-summed sparse row. -/
def buildRow (ts : List (Nat × Int)) : List (Nat × Int) :=
  ts.foldl (fun acc t => insertSum t.1 t.2 acc) []

/-- Partial sums of a list of counts: `cumCounts 0 ns` has one entry more
than `ns`, starts at the accumulator and ends at the total (§4.1 (d)). -/
def cumCounts (acc : Nat) : List Nat → List Nat
  | [] => [acc]
  | n :: ns => acc :: cumCounts (acc + n) ns

/-- Modelled from the spec: the Compressed Row Store of §3 — three parallel
arrays `indptr`, `indices`, `data` with fixed dimensions. -/
structure CSR where
  rows : Nat
  cols : Nat
  indptr : List Nat
  indices : List Nat
  data : List Int
deriving DecidableEq, Repr

/-- Build a CSR store from per-row sorted association lists: `indptr` is the
cumulative count sequence, `indices`/`data` the concatenated keys/values. -/
def CSR.ofRows (rows cols : Nat) (rws : List (List (Nat × Int))) : CSR :=
  { rows := rows
    cols := cols
    indptr := cumCounts 0 (rws.map List.length)
    indices := rws.flatten.map Prod.fst
    data := rws.flatten.map Prod.snd }

/-- `indptr[r]`: offset of row `r`'s slice. -/
def CSR.rowStart (A : CSR) (r : Nat) : Nat := A.indptr.getD r 0

/-- Modelled from the spec (§4.3 `row_view`): the column-index slice and the
value slice of row `r`, cut out of the existing `indices` and `data` arrays
between `indptr[r]` and `indptr[r+1]`; no new store is constructed. -/
def CSR.row_view (A : CSR) (r : Nat) : List Nat × List Int :=
  ((A.indices.drop (A.rowStart r)).take (A.rowStart (r + 1) - A.rowStart r),
   (A.data.drop (A.rowStart r)).take (A.rowStart (r + 1) - A.rowStart r))

/-- Row `r` as an association list: the two slices of `row_view` zipped. -/
def CSR.rowPairs (A : CSR) (r : Nat) : List (Nat × Int) :=
  (A.row_view r).1.zip (A.row_view r).2

/-- §4.3 `get`: linear scan of the row's slice, zero when absent. -/
def CSR.get (A : CSR) (r c : Nat) : Int := alget (A.rowPairs r) c

/-- §4.3 `to_dense`: the fully-populated `rows × cols` rectangle. -/
def CSR.to_dense (A : CSR) : List (List Int) :=
  (List.range A.rows).map (fun r => (List.range A.cols).map (fun c => A.get r c))

/-- The column-index slice of row `r` (the first component of `row_view`). -/
def CSR.rowSlice (A : CSR) (r : Nat) : List Nat := (A.row_view r).1

/-- The CSR invariants of §3: `indptr` has length `rows + 1`, starts at 0,
is non-decreasing and ends at `nnz = len(indices) = len(data)`; each row's
column indices are unique and ascending; all column indices are `< cols`. -/
def CSR.WF (A : CSR) : Prop :=
  A.indptr.length = A.rows + 1 ∧
  A.indptr.getD 0 0 = 0 ∧
  List.Pairwise (· ≤ ·) A.indptr ∧
  A.indptr.getD A.rows 0 = A.indices.length ∧
  A.data.length = A.indices.length ∧
  (∀ r, r ∈ List.range A.rows → List.Pairwise (· < ·) (A.rowSlice r)) ∧
  (∀ c, c ∈ A.indices → c < A.cols)

/-- All stored values are nonzero (no explicit zeros in the store). -/
def CSR.NoZeros (A : CSR) : Prop := ∀ v, v ∈ A.data → v ≠ 0

instance (A : CSR) : Decidable A.WF :=
  inferInstanceAs (Decidable
    (A.indptr.length = A.rows + 1 ∧
     A.indptr.getD 0 0 = 0 ∧
     List.Pairwise (· ≤ ·) A.indptr ∧
     A.indptr.getD A.rows 0 = A.indices.length ∧
     A.data.length = A.indices.length ∧
     (∀ r, r ∈ List.range A.rows → List.Pairwise (· < ·) (A.rowSlice r)) ∧
     (∀ c, c ∈ A.indices → c < A.cols)))

instance (A : CSR) : Decidable A.NoZeros :=
  inferInstanceAs (Decidable (∀ v, v ∈ A.data → v ≠ 0))

/-- One output row of the matrix product: accumulate `v * other.row_view c`
for every nonzero `(c, v)` of the left row into a sparse accumulator keyed
by output column, kept compact and sorted (§4.3 `matmul`). -/
def matRowAcc (B : CSR) (arow : List (Nat × Int)) : List (Nat × Int) :=
  arow.foldl
    (fun acc cv =>
      (B.rowPairs cv.1).foldl (fun acc2 jw => insertSum jw.1 (cv.2 * jw.2) acc2) acc)
    []

/-- Modelled from the spec (§4.3 `matmul`): row-by-row sparse accumulation;
requires `self.cols = other.rows`, else `DimensionMismatch` before any
computation; output has `rows = self.rows` and `cols = other.cols`. -/
def CSR.matmul (A B : CSR) : Except SparseError CSR :=
  if A.cols = B.rows then
    .ok (CSR.ofRows A.rows B.cols
      ((List.range A.rows).map (fun r => matRowAcc B (A.rowPairs r))))
  else .error .dimensionMismatch

/-- Intersection of two sparse rows with values multiplied pointwise. -/
def interRow (la lb : List (Nat × Int)) : List (Nat × Int) :=
  la.filterMap (fun cv => (alfind lb cv.1).map (fun w => (cv.1, cv.2 * w)))

/-- Modelled from the spec (§4.3 `elementwise_multiply`): requires identical
shape, else `DimensionMismatch`; each output row is the key-intersection of
the operand rows with products as values. -/
def CSR.elementwise_multiply (A B : CSR) : Except SparseError CSR :=
  if A.rows = B.rows ∧ A.cols = B.cols then
    .ok (CSR.ofRows A.rows A.cols
      ((List.range A.rows).map (fun r => interRow (A.rowPairs r) (B.rowPairs r))))
  else .error .dimensionMismatch

/-- Modelled from the spec: the Compressed Column Store of §3/§4.4, the
column-major dual of `CSR`. -/
structure CSC where
  rows : Nat
  cols : Nat
  indptr : List Nat
  indices : List Nat
  data : List Int
deriving DecidableEq, Repr

/-- Build a CSC store from per-column sorted association lists (keys are row
indices). -/
def CSC.ofCols (rows cols : Nat) (cls : List (List (Nat × Int))) : CSC :=
  { rows := rows
    cols := cols
    indptr := cumCounts 0 (cls.map List.length)
    indices := cls.flatten.map Prod.fst
    data := cls.flatten.map Prod.snd }

/-- `indptr[c]`: offset of column `c`'s slice. -/
def CSC.colStart (C : CSC) (c : Nat) : Nat := C.indptr.getD c 0

/-- §4.4 `col_view`: the row-index slice and value slice of column `c`. -/
def CSC.col_view (C : CSC) (c : Nat) : List Nat × List Int :=
  ((C.indices.drop (C.colStart c)).take (C.colStart (c + 1) - C.colStart c),
   (C.data.drop (C.colStart c)).take (C.colStart (c + 1) - C.colStart c))

/-- Column `c` as an association list keyed by row index. -/
def CSC.colPairs (C : CSC) (c : Nat) : List (Nat × Int) :=
  (C.col_view c).1.zip (C.col_view c).2

/-- §4.4 `get` on a CSC store: scan of the column's slice. -/
def CSC.get (C : CSC) (r c : Nat) : Int := alget (C.colPairs c) r

/-- §4.3 `to_csc`: transpose-like reshuffle of a CSR store into its CSC
dual — column `c` collects, in ascending row order, every row's entry at
column `c`. -/
def CSR.to_csc (A : CSR) : CSC :=
  CSC.ofCols A.rows A.cols
    ((List.range A.cols).map (fun c =>
      (List.range A.rows).filterMap (fun r =>
        (alfind (A.rowPairs r) c).map (fun v => (r, v)))))

/-- §4.4: conversion of a CSC store back to CSR, the mirrored reshuffle. -/
def CSC.to_csr (C : CSC) : CSR :=
  CSR.ofRows C.rows C.cols
    ((List.range C.rows).map (fun r =>
      (List.range C.cols).filterMap (fun c =>
        (alfind (C.colPairs c) r).map (fun v => (c, v)))))

/-- Modelled from the spec: the Coordinate Builder of §3/§4.1 — three
parallel sequences of equal length, duplicates allowed. -/
structure COO where
  rows : Nat
  cols : Nat
  row_idx : List Nat
  col_idx : List Nat
  value : List Int
deriving DecidableEq, Repr

/-- An empty COO builder with fixed dimensions. -/
def COO.empty (rows cols : Nat) : COO := ⟨rows, cols, [], [], []⟩

/-- §4.1 `add`: append a triple; `IndexError` when a coordinate is negative
or at least the corresponding dimension, with the builder unchanged. -/
def COO.add (b : COO) (row col : Int) (v : Int) : Except SparseError COO :=
  if 0 ≤ row ∧ row < (b.rows : Int) ∧ 0 ≤ col ∧ col < (b.cols : Int) then
    .ok { b with
          row_idx := b.row_idx ++ [row.toNat]
          col_idx := b.col_idx ++ [col.toNat]
          value := b.value ++ [v] }
  else .error .indexError

/-- The builder's triples, zipped back together. -/
def COO.toTriples (b : COO) : List (Nat × Nat × Int) :=
  b.row_idx.zip (b.col_idx.zip b.value)

/-- The (column, value) contributions of the triples targeting row `r`. -/
def COO.rowTriples (b : COO) (r : Nat) : List (Nat × Int) :=
  (b.toTriples.filter (fun t => t.1 == r)).map (fun t => t.2)

/-- §4.1 `to_csr`: group triples by row, sum values sharing a (row, col)
pair, sort each row's columns ascending, build `indptr` from cumulative
counts. -/
def COO.to_csr (b : COO) : CSR :=
  CSR.ofRows b.rows b.cols
    ((List.range b.rows).map (fun r => buildRow (b.rowTriples r)))

/-- The COO builder's reachable-state invariant: the three sequences have
equal length and every triple's coordinates are in bounds. -/
def COO.Bounded (b : COO) : Prop :=
  b.row_idx.length = b.col_idx.length ∧ b.col_idx.length = b.value.length ∧
  ∀ t ∈ b.toTriples, t.1 < b.rows ∧ t.2.1 < b.cols

/-- Run a sequence of `add` requests, keeping the builder unchanged on a
failed request. -/
def COO.applyAdds (b : COO) : List (Int × Int × Int) → COO
  | [] => b
  | op :: ops =>
    (match b.add op.1 op.2.1 op.2.2 with
     | .ok b2 => b2
     | .error _ => b).applyAdds ops

/-- Modelled from the spec: the List-of-Lists Builder of §3/§4.2 — one
(column, value) list per row; `set` keeps each row sorted by column. -/
structure LIL where
  rows : Nat
  cols : Nat
  rowsData : List (List (Nat × Int))
deriving DecidableEq, Repr

/-- An empty LIL builder with fixed dimensions. -/
def LIL.empty (rows cols : Nat) : LIL := ⟨rows, cols, List.replicate rows []⟩

/-- §4.2 `set`: insert or overwrite the entry at (row, col); `IndexError`
when a coordinate is out of the declared bounds. -/
def LIL.set (b : LIL) (row col : Int) (v : Int) : Except SparseError LIL :=
  if 0 ≤ row ∧ row < (b.rows : Int) ∧ 0 ≤ col ∧ col < (b.cols : Int) then
    .ok { b with
          rowsData :=
            b.rowsData.set row.toNat
              (insertSet col.toNat v (b.rowsData.getD row.toNat [])) }
  else .error .indexError

/-- §4.2 `get`: the stored value, or zero when absent. -/
def LIL.get (b : LIL) (row col : Nat) : Int :=
  alget (b.rowsData.getD row []) col

/-- §4.2 `to_csr`: concatenate the (already column-sorted) rows and derive
`indptr` from the per-row counts. -/
def LIL.to_csr (b : LIL) : CSR := CSR.ofRows b.rows b.cols b.rowsData

/-- The LIL builder's reachable-state invariant: one (sorted, in-bounds)
row list per row. -/
def LIL.Inv (b : LIL) : Prop :=
  b.rowsData.length = b.rows ∧
  ∀ l ∈ b.rowsData, keySorted l ∧ ∀ p ∈ l, p.1 < b.cols

/-- Run a sequence of `set` requests, keeping the builder unchanged on a
failed request. -/
def LIL.applySets (b : LIL) : List (Int × Int × Int) → LIL
  | [] => b
  | op :: ops =>
    (match b.set op.1 op.2.1 op.2.2 with
     | .ok b2 => b2
     | .error _ => b).applySets ops

/-- Entry `(r, c)` of a dense row-major rectangle, zero outside. -/
def denseGet (M : List (List Int)) (r c : Nat) : Int :=
  (M.getD r []).getD c 0

/-- Sum of `f` over a list. -/
def sumL (l : List α) (f : α → Int) : Int := (l.map f).sum

/-- Dense matrix product with `p` output columns; the inner dimension is the
row count of the right factor. -/
def denseMul (P Q : List (List Int)) (p : Nat) : List (List Int) :=
  (List.range P.length).map (fun r =>
    (List.range p).map (fun c =>
      sumL (List.range Q.length) (fun k => denseGet P r k * denseGet Q k c)))

/-- The naive scan of §8 "Row isolation": the (column, value) pairs a dense
row `g` holds at its nonzero positions below `K`, in ascending column
order. -/
def rowScan (g : Nat → Int) (K : Nat) : List (Nat × Int) :=
  (List.range K).filterMap (fun j => if g j = 0 then none else some (j, g j))

/-- Dense → CSR conversion: scan each dense row for its nonzeros. -/
def denseToCSR (cols : Nat) (M : List (List Int)) : CSR :=
  CSR.ofRows M.length cols
    ((List.range M.length).map (fun i => rowScan (denseGet M i) cols))

/-- Dense → COO conversion: one triple per nonzero dense entry, in row-major
order. -/
def denseToCOO (cols : Nat) (M : List (List Int)) : COO :=
  let ts := (List.range M.length).flatMap
    (fun i => (rowScan (denseGet M i) cols).map (fun q => (i, q)))
  { rows := M.length
    cols := cols
    row_idx := ts.map Prod.fst
    col_idx := ts.map (fun t => t.2.1)
    value := ts.map (fun t => t.2.2) }

/-- Modelled from the spec: in the notebook the `*` operator on two sparse
operands performs the matrix product. -/
def CSR.star (A B : CSR) : Except SparseError CSR := A.matmul B

/-- Modelled from the spec: in the notebook the `dot` method on two sparse
operands performs the matrix product. -/
def CSR.dot (A B : CSR) : Except SparseError CSR := A.matmul B

/-- The notebook's 4×4 dense tutorial matrix `M`. -/
def tutM : List (List Int) :=
  [[1, 0, 0, 0], [0, 3, 0, 0], [0, 1, 1, 0], [1, 0, 0, 1]]

/-- The tutorial matrix as a COO builder, exactly the notebook's `A_coo`
arrays: rows `[0,1,2,2,3,3]`, cols `[0,1,1,2,0,3]`, unit values except
`(1,1) = 3`. -/
def tutCOO : COO := ⟨4, 4, [0, 1, 2, 2, 3, 3], [0, 1, 1, 2, 0, 3], [1, 3, 1, 1, 1, 1]⟩

/-- The tutorial matrix as a CSR store (the notebook's `A_csr`). -/
def tutA : CSR := tutCOO.to_csr

/-- The dense result of `(A * A).todense()` recorded in the notebook. -/
def tutAA : List (List Int) :=
  [[1, 0, 0, 0], [0, 9, 0, 0], [0, 4, 1, 0], [2, 0, 0, 1]]

/-- A 3×3 store (the identity), used for the dimension-mismatch example. -/
def tutB3 : CSR := CSR.ofRows 3 3 [[(0, 1)], [(1, 1)], [(2, 1)]]

/-! ## Association-list lemmas -/

theorem alget_nil (x : Nat) : alget [] x = 0 := rfl

theorem alget_cons (c : Nat) (v : Int) (rest : List (Nat × Int)) (x : Nat) :
    alget ((c, v) :: rest) x = if x = c then v else alget rest x := by
  by_cases h : x = c <;> simp [alget, alfind, h]

theorem alfind_eq_none (l : List (Nat × Int)) (x : Nat) (h : x ∉ keys l) :
    alfind l x = none := by
  induction l with
  | nil => rfl
  | cons p rest ih =>
    obtain ⟨c, v⟩ := p
    simp only [keys, List.map_cons, List.mem_cons, not_or] at h
    simp only [alfind, if_neg h.1]
    exact ih (by simpa [keys] using h.2)

theorem alget_eq_zero_of_not_mem (l : List (Nat × Int)) (x : Nat) (h : x ∉ keys l) :
    alget l x = 0 := by
  simp [alget, alfind_eq_none l x h]

theorem alfind_isSome (l : List (Nat × Int)) (x : Nat) :
    (alfind l x).isSome ↔ x ∈ keys l := by
  induction l with
  | nil => simp [alfind, keys]
  | cons p rest ih =>
    obtain ⟨c, v⟩ := p
    by_cases h : x = c
    · simp [alfind, keys, h]
    · simp only [alfind, keys, h, if_neg] at ih ⊢
      simp [h]
      simpa [keys] using ih

theorem alfind_eq_some_alget (l : List (Nat × Int)) (x : Nat) (h : x ∈ keys l) :
    alfind l x = some (alget l x) := by
  have hs : (alfind l x).isSome := (alfind_isSome l x).mpr h
  obtain ⟨v, hv⟩ := Option.isSome_iff_exists.mp hs
  simp [alget, hv]

theorem mem_keys_insertSum (c : Nat) (v : Int) (l : List (Nat × Int)) (x : Nat) :
    x ∈ keys (insertSum c v l) ↔ x = c ∨ x ∈ keys l := by
  induction l with
  | nil => simp [insertSum, keys]
  | cons p rest ih =>
    obtain ⟨d, w⟩ := p
    by_cases h1 : c = d
    · subst h1
      simp [insertSum, keys]
    · by_cases h2 : c < d
      · simp [insertSum, h1, h2, keys]
      · simp only [insertSum, if_neg h1, if_neg h2]
        simp only [keys, List.map_cons, List.mem_cons] at ih ⊢
        rw [ih]
        tauto

theorem insertSum_keySorted (c : Nat) (v : Int) (l : List (Nat × Int))
    (h : keySorted l) : keySorted (insertSum c v l) := by
  induction l with
  | nil => simp [insertSum, keySorted]
  | cons p rest ih =>
    obtain ⟨d, w⟩ := p
    rw [keySorted, List.pairwise_cons] at h
    obtain ⟨hd, hrest⟩ := h
    by_cases h1 : c = d
    · subst h1
      simp only [insertSum, if_pos rfl]
      exact List.Pairwise.cons hd hrest
    · by_cases h2 : c < d
      · simp only [insertSum, if_neg h1, if_pos h2]
        refine List.Pairwise.cons ?_ (List.Pairwise.cons hd hrest)
        intro q hq
        rcases List.mem_cons.mp hq with h | h
        · subst h; exact h2
        · exact lt_trans h2 (hd q h)
      · have h3 : d < c := by omega
        simp only [insertSum, if_neg h1, if_neg h2]
        refine List.Pairwise.cons ?_ (ih hrest)
        intro q hq
        have : q.1 = c ∨ q.1 ∈ keys rest := by
          have := (mem_keys_insertSum c v rest q.1).mp
          exact this (by simp [keys]; exact ⟨q.2, by simpa using hq⟩)
        rcases this with h | h
        · omega
        · obtain ⟨q2, hq2⟩ := List.mem_map.mp h
          have := hd (q.1, q2.2) (by
            have : q2 = (q.1, q2.2) := by
              obtain ⟨a, b⟩ := q2
              simp at hq2
              simp [hq2.2]
            rw [this] at hq2
            exact hq2.1)
          exact this

theorem insertSum_alget (c : Nat) (v : Int) (l : List (Nat × Int)) (x : Nat)
    (h : keySorted l) :
    alget (insertSum c v l) x = alget l x + (if x = c then v else 0) := by
  induction l with
  | nil =>
    by_cases hx : x = c <;> simp [insertSum, alget_cons, alget_nil, hx]
  | cons p rest ih =>
    obtain ⟨d, w⟩ := p
    rw [keySorted, List.pairwise_cons] at h
    obtain ⟨hd, hrest⟩ := h
    by_cases h1 : c = d
    · subst h1
      by_cases hx : x = c <;> simp [insertSum, alget_cons, hx]
    · by_cases h2 : c < d
      · by_cases hx : x = c
        · subst hx
          have hxd : x ≠ d := by omega
          have hz : alget rest x = 0 := by
            apply alget_eq_zero_of_not_mem
            intro hm
            obtain ⟨q, hq, hq1⟩ := List.mem_map.mp hm
            have := hd q hq
            omega
          simp [insertSum, h1, h2, alget_cons, hxd, hz]
        · simp [insertSum, h1, h2, alget_cons, hx]
      · by_cases hx : x = d
        · have hxc : x ≠ c := by omega
          simp [insertSum, h1, h2, alget_cons, hx, hxc]
          exact fun hdc => absurd hdc.symm h1
        · simp [insertSum, h1, h2, alget_cons, hx, ih hrest]

theorem mem_keys_insertSet (c : Nat) (v : Int) (l : List (Nat × Int)) (x : Nat) :
    x ∈ keys (insertSet c v l) ↔ x = c ∨ x ∈ keys l := by
  induction l with
  | nil => simp [insertSet, keys]
  | cons p rest ih =>
    obtain ⟨d, w⟩ := p
    by_cases h1 : c = d
    · subst h1
      simp [insertSet, keys]
    · by_cases h2 : c < d
      · simp [insertSet, h1, h2, keys]
      · simp only [insertSet, if_neg h1, if_neg h2]
        simp only [keys, List.map_cons, List.mem_cons] at ih ⊢
        rw [ih]
        tauto

theorem insertSet_keySorted (c : Nat) (v : Int) (l : List (Nat × Int))
    (h : keySorted l) : keySorted (insertSet c v l) := by
  induction l with
  | nil => simp [insertSet, keySorted]
  | cons p rest ih =>
    obtain ⟨d, w⟩ := p
    rw [keySorted, List.pairwise_cons] at h
    obtain ⟨hd, hrest⟩ := h
    by_cases h1 : c = d
    · subst h1
      simp only [insertSet, if_pos rfl]
      exact List.Pairwise.cons hd hrest
    · by_cases h2 : c < d
      · simp only [insertSet, if_neg h1, if_pos h2]
        refine List.Pairwise.cons ?_ (List.Pairwise.cons hd hrest)
        intro q hq
        rcases List.mem_cons.mp hq with h | h
        · subst h; exact h2
        · exact lt_trans h2 (hd q h)
      · have h3 : d < c := by omega
        simp only [insertSet, if_neg h1, if_neg h2]
        refine List.Pairwise.cons ?_ (ih hrest)
        intro q hq
        have : q.1 = c ∨ q.1 ∈ keys rest := by
          have := (mem_keys_insertSet c v rest q.1).mp
          exact this (by simp [keys]; exact ⟨q.2, by simpa using hq⟩)
        rcases this with h | h
        · omega
        · obtain ⟨q2, hq2⟩ := List.mem_map.mp h
          have := hd (q.1, q2.2) (by
            have : q2 = (q.1, q2.2) := by
              obtain ⟨a, b⟩ := q2
              simp at hq2
              simp [hq2.2]
            rw [this] at hq2
            exact hq2.1)
          exact this

/-! ## Summation lemmas -/

theorem sumL_nil (f : α → Int) : sumL [] f = 0 := rfl

theorem sumL_cons (a : α) (l : List α) (f : α → Int) :
    sumL (a :: l) f = f a + sumL l f := by
  simp [sumL]

theorem sumL_append (l1 l2 : List α) (f : α → Int) :
    sumL (l1 ++ l2) f = sumL l1 f + sumL l2 f := by
  simp [sumL]

theorem sumL_congr {l : List α} {f g : α → Int} (h : ∀ a ∈ l, f a = g a) :
    sumL l f = sumL l g := by
  unfold sumL
  rw [List.map_congr_left h]

theorem sumL_map (l : List α) (h : α → β) (f : β → Int) :
    sumL (l.map h) f = sumL l (fun a => f (h a)) := by
  unfold sumL
  rw [List.map_map]
  rfl

theorem sumL_zero (l : List α) : sumL l (fun _ => (0 : Int)) = 0 := by
  simp [sumL]

theorem sumL_add (l : List α) (f g : α → Int) :
    sumL l (fun a => f a + g a) = sumL l f + sumL l g := by
  simp [sumL, List.sum_map_add]

theorem sumL_filter (l : List α) (p : α → Bool) (f : α → Int) :
    sumL (l.filter p) f = sumL l (fun a => if p a then f a else 0) := by
  induction l with
  | nil => rfl
  | cons a l ih =>
    by_cases h : p a <;> simp [List.filter_cons, h, sumL_cons, ih]

theorem sumL_flatMap (l : List α) (f : α → List β) (g : β → Int) :
    sumL (l.flatMap f) g = sumL l (fun a => sumL (f a) g) := by
  induction l with
  | nil => rfl
  | cons a l ih => simp [List.flatMap_cons, sumL_append, sumL_cons, ih]

theorem sum_range_ite (n c : Nat) (t : Nat → Int) :
    sumL (List.range n) (fun k => if k = c then t k else 0) =
      if c < n then t c else 0 := by
  induction n with
  | zero => simp [sumL]
  | succ n ih =>
    rw [List.range_succ, sumL_append, ih]
    have hs : sumL [n] (fun k => if k = c then t k else 0) = if n = c then t c else 0 := by
      by_cases h : n = c <;> simp [sumL, h]
    rw [hs]
    by_cases h1 : c < n
    · rw [if_pos h1, if_neg (by omega), if_pos (by omega), add_zero]
    · by_cases h2 : n = c
      · rw [if_neg h1, if_pos h2, if_pos (by omega), zero_add]
      · rw [if_neg h1, if_neg h2, if_neg (by omega), add_zero]

/-! ## Fold (row accumulation) lemmas -/

theorem foldSum_keySorted (ts acc : List (Nat × Int)) (h : keySorted acc) :
    keySorted (ts.foldl (fun a t => insertSum t.1 t.2 a) acc) := by
  induction ts generalizing acc with
  | nil => exact h
  | cons t ts ih => exact ih _ (insertSum_keySorted _ _ _ h)

theorem foldSum_alget (ts acc : List (Nat × Int)) (x : Nat) (h : keySorted acc) :
    alget (ts.foldl (fun a t => insertSum t.1 t.2 a) acc) x =
      alget acc x + sumL ts (fun t => if t.1 = x then t.2 else 0) := by
  induction ts generalizing acc with
  | nil => simp [sumL_nil]
  | cons t ts ih =>
    rw [List.foldl_cons, ih _ (insertSum_keySorted _ _ _ h),
      insertSum_alget _ _ _ _ h, sumL_cons]
    have hIf : (if x = t.1 then t.2 else 0) = (if t.1 = x then t.2 else 0) := by
      by_cases hx : x = t.1
      · rw [if_pos hx, if_pos hx.symm]
      · rw [if_neg hx, if_neg (fun hh => hx hh.symm)]
    rw [hIf]
    ring

theorem mem_keys_foldSum (ts acc : List (Nat × Int)) (x : Nat) :
    x ∈ keys (ts.foldl (fun a t => insertSum t.1 t.2 a) acc) ↔
      x ∈ keys acc ∨ x ∈ ts.map Prod.fst := by
  induction ts generalizing acc with
  | nil => simp
  | cons t ts ih =>
    rw [List.foldl_cons, ih, mem_keys_insertSum]
    simp only [List.map_cons, List.mem_cons]
    tauto

theorem buildRow_keySorted (ts : List (Nat × Int)) : keySorted (buildRow ts) :=
  foldSum_keySorted ts [] (by simp [keySorted])

theorem buildRow_alget (ts : List (Nat × Int)) (x : Nat) :
    alget (buildRow ts) x = sumL ts (fun t => if t.1 = x then t.2 else 0) := by
  have h := foldSum_alget ts [] x (by simp [keySorted])
  simpa [buildRow, alget_nil] using h

theorem mem_keys_buildRow (ts : List (Nat × Int)) (x : Nat) :
    x ∈ keys (buildRow ts) ↔ x ∈ ts.map Prod.fst := by
  have h := mem_keys_foldSum ts [] x
  simpa [buildRow, keys] using h

/-! ## cumCounts and flatten-slice lemmas -/

theorem cumCounts_length (acc : Nat) (ls : List Nat) :
    (cumCounts acc ls).length = ls.length + 1 := by
  induction ls generalizing acc with
  | nil => rfl
  | cons n ns ih => simp [cumCounts, ih]

theorem cumCounts_getD (ls : List Nat) (r acc : Nat) (h : r ≤ ls.length) :
    (cumCounts acc ls).getD r 0 = acc + (ls.take r).sum := by
  induction ls generalizing acc r with
  | nil =>
    obtain rfl : r = 0 := by simpa using h
    simp [cumCounts]
  | cons n ns ih =>
    cases r with
    | zero => simp [cumCounts]
    | succ r =>
      simp only [cumCounts, List.getD_cons_succ, List.take_succ_cons, List.sum_cons]
      rw [ih _ _ (by simpa using h)]
      omega

theorem cumCounts_mem_le (acc : Nat) (ls : List Nat) :
    ∀ x ∈ cumCounts acc ls, acc ≤ x := by
  induction ls generalizing acc with
  | nil => simp [cumCounts]
  | cons n ns ih =>
    intro x hx
    rcases List.mem_cons.mp hx with rfl | hx2
    · exact le_refl _
    · have := ih (acc + n) x hx2
      omega

theorem cumCounts_pairwise (acc : Nat) (ls : List Nat) :
    List.Pairwise (· ≤ ·) (cumCounts acc ls) := by
  induction ls generalizing acc with
  | nil => simp [cumCounts]
  | cons n ns ih =>
    refine List.Pairwise.cons ?_ (ih (acc + n))
    intro b hb
    have := cumCounts_mem_le (acc + n) ns b hb
    omega

theorem flatten_slice {α : Type} (rws : List (List α)) (r : Nat) (h : r < rws.length) :
    (rws.flatten.drop (((rws.map List.length).take r).sum)).take
        ((rws.getD r []).length) = rws.getD r [] := by
  induction rws generalizing r with
  | nil => simp at h
  | cons l rest ih =>
    cases r with
    | zero =>
      simp only [List.take_zero, List.sum_nil, List.drop_zero, List.getD_cons_zero,
        List.flatten_cons]
      exact List.take_left l rest.flatten
    | succ r =>
      simp only [List.map_cons, List.take_succ_cons, List.sum_cons, List.flatten_cons,
        List.getD_cons_succ]
      rw [List.drop_append]
      exact ih r (by simpa using h)

theorem flatten_slice_map {α β : Type} (f : α → β) (rws : List (List α)) (r : Nat)
    (h : r < rws.length) :
    ((rws.flatten.map f).drop (((rws.map List.length).take r).sum)).take
        ((rws.getD r []).length) = (rws.getD r []).map f := by
  rw [← List.map_drop f, ← List.map_take f, flatten_slice rws r h]

theorem zip_map_fst_snd {α β : Type} (l : List (α × β)) :
    (l.map Prod.fst).zip (l.map Prod.snd) = l := by
  induction l with
  | nil => rfl
  | cons p l ih => simp [ih]

theorem getD_map_range {α : Type} (f : Nat → α) (n r : Nat) (d : α) (h : r < n) :
    ((List.range n).map f).getD r d = f r := by
  rw [List.getD_eq_getElem _ _ (by simpa using h)]
  simp

theorem sum_take_succ_getD (ls : List Nat) (r : Nat) (h : r < ls.length) :
    (ls.take (r + 1)).sum = (ls.take r).sum + ls.getD r 0 := by
  rw [List.take_succ, List.sum_append, List.getElem?_eq_getElem h,
    List.getD_eq_getElem _ _ h]
  simp

/-! ## Structure of stores built by `CSR.ofRows` / `CSC.ofCols` -/

theorem ofRows_rows (rows cols : Nat) (rws : List (List (Nat × Int))) :
    (CSR.ofRows rows cols rws).rows = rows := rfl

theorem ofRows_cols (rows cols : Nat) (rws : List (List (Nat × Int))) :
    (CSR.ofRows rows cols rws).cols = cols := rfl

theorem ofRows_indices (rows cols : Nat) (rws : List (List (Nat × Int))) :
    (CSR.ofRows rows cols rws).indices = rws.flatten.map Prod.fst := rfl

theorem ofRows_data (rows cols : Nat) (rws : List (List (Nat × Int))) :
    (CSR.ofRows rows cols rws).data = rws.flatten.map Prod.snd := rfl

theorem rowStart_ofRows (rows cols : Nat) (rws : List (List (Nat × Int))) (r : Nat)
    (h : r ≤ rws.length) :
    (CSR.ofRows rows cols rws).rowStart r = ((rws.map List.length).take r).sum := by
  show (cumCounts 0 (rws.map List.length)).getD r 0 = _
  rw [cumCounts_getD _ _ _ (by simpa using h)]
  omega

theorem rowPairs_ofRows (rows cols : Nat) (rws : List (List (Nat × Int))) (r : Nat)
    (h : r < rws.length) :
    (CSR.ofRows rows cols rws).rowPairs r = rws.getD r [] := by
  have h1 : (CSR.ofRows rows cols rws).rowStart r = ((rws.map List.length).take r).sum :=
    rowStart_ofRows _ _ _ _ (by omega)
  have h2 : (CSR.ofRows rows cols rws).rowStart (r + 1)
      = ((rws.map List.length).take r).sum + (rws.getD r []).length := by
    rw [rowStart_ofRows _ _ _ _ (by omega)]
    rw [sum_take_succ_getD _ _ (by simpa using h)]
    congr 1
    rw [List.getD_eq_getElem _ _ (by simpa using h), List.getElem_map,
      List.getD_eq_getElem _ _ h]
  unfold CSR.rowPairs CSR.row_view
  dsimp only
  rw [ofRows_indices, ofRows_data, h1, h2, Nat.add_sub_cancel_left]
  rw [flatten_slice_map Prod.fst rws r h, flatten_slice_map Prod.snd rws r h,
    zip_map_fst_snd]

theorem rowSlice_ofRows (rows cols : Nat) (rws : List (List (Nat × Int))) (r : Nat)
    (h : r < rws.length) :
    (CSR.ofRows rows cols rws).rowSlice r = (rws.getD r []).map Prod.fst := by
  have h1 : (CSR.ofRows rows cols rws).rowStart r = ((rws.map List.length).take r).sum :=
    rowStart_ofRows _ _ _ _ (by omega)
  have h2 : (CSR.ofRows rows cols rws).rowStart (r + 1)
      = ((rws.map List.length).take r).sum + (rws.getD r []).length := by
    rw [rowStart_ofRows _ _ _ _ (by omega)]
    rw [sum_take_succ_getD _ _ (by simpa using h)]
    congr 1
    rw [List.getD_eq_getElem _ _ (by simpa using h), List.getElem_map,
      List.getD_eq_getElem _ _ h]
  unfold CSR.rowSlice CSR.row_view
  dsimp only
  rw [ofRows_indices, h1, h2, Nat.add_sub_cancel_left]
  rw [flatten_slice_map Prod.fst rws r h]

theorem ofRows_WF (rows cols : Nat) (rws : List (List (Nat × Int)))
    (hlen : rws.length = rows)
    (hsort : ∀ l ∈ rws, keySorted l)
    (hbound : ∀ l ∈ rws, ∀ p ∈ l, p.1 < cols) :
    (CSR.ofRows rows cols rws).WF := by
  refine ⟨?_, ?_, ?_, ?_, ?_, ?_, ?_⟩
  · show (cumCounts 0 (rws.map List.length)).length = rows + 1
    rw [cumCounts_length]
    simp [hlen]
  · show (cumCounts 0 (rws.map List.length)).getD 0 0 = 0
    rw [cumCounts_getD _ _ _ (by omega)]
    simp
  · exact cumCounts_pairwise 0 _
  · show (cumCounts 0 (rws.map List.length)).getD rows 0
      = (rws.flatten.map Prod.fst).length
    rw [cumCounts_getD _ _ _ (by simp [hlen])]
    rw [List.take_of_length_le (by simp [hlen])]
    rw [List.length_map, List.length_flatten]
    omega
  · show (rws.flatten.map Prod.snd).length = (rws.flatten.map Prod.fst).length
    rw [List.length_map, List.length_map]
  · intro r hr
    rw [List.mem_range, ofRows_rows] at hr
    rw [rowSlice_ofRows _ _ _ _ (by omega)]
    rw [List.pairwise_map]
    have hm : rws.getD r [] ∈ rws := by
      rw [List.getD_eq_getElem _ _ (by omega)]
      exact List.getElem_mem _
    exact hsort _ hm
  · intro c hc
    rw [ofRows_indices] at hc
    obtain ⟨p, hp, rfl⟩ := List.mem_map.mp hc
    obtain ⟨l, hl, hpl⟩ := List.mem_flatten.mp hp
    exact hbound l hl p hpl

theorem colPairs_ofCols (rows cols : Nat) (cls : List (List (Nat × Int))) (c : Nat)
    (h : c < cls.length) :
    (CSC.ofCols rows cols cls).colPairs c = cls.getD c [] := by
  have h1 : (CSC.ofCols rows cols cls).colStart c = ((cls.map List.length).take c).sum := by
    show (cumCounts 0 (cls.map List.length)).getD c 0 = _
    rw [cumCounts_getD _ _ _ (by simp; omega)]
    omega
  have h2 : (CSC.ofCols rows cols cls).colStart (c + 1)
      = ((cls.map List.length).take c).sum + (cls.getD c []).length := by
    show (cumCounts 0 (cls.map List.length)).getD (c + 1) 0 = _
    rw [cumCounts_getD _ _ _ (by simp; omega)]
    rw [sum_take_succ_getD _ _ (by simpa using h)]
    rw [List.getD_eq_getElem _ _ (by simpa using h), List.getElem_map,
      List.getD_eq_getElem _ _ h]
    omega
  unfold CSC.colPairs CSC.col_view
  dsimp only
  rw [show (CSC.ofCols rows cols cls).indices = cls.flatten.map Prod.fst from rfl,
    show (CSC.ofCols rows cols cls).data = cls.flatten.map Prod.snd from rfl, h1, h2,
    Nat.add_sub_cancel_left]
  rw [flatten_slice_map Prod.fst cls c h, flatten_slice_map Prod.snd cls c h,
    zip_map_fst_snd]

/-! ## Well-formedness consequences -/

theorem WF_keys_rowPairs (A : CSR) (hA : A.WF) (r : Nat) :
    keys (A.rowPairs r) = A.rowSlice r := by
  obtain ⟨h1, h2, h3, h4, h5, h6, h7⟩ := hA
  show List.map Prod.fst ((A.row_view r).1.zip (A.row_view r).2) = (A.row_view r).1
  apply List.map_fst_zip
  show ((A.indices.drop (A.rowStart r)).take (A.rowStart (r + 1) - A.rowStart r)).length
    ≤ ((A.data.drop (A.rowStart r)).take (A.rowStart (r + 1) - A.rowStart r)).length
  simp [List.length_take, List.length_drop, h5]

theorem WF_rowPairs_sorted (A : CSR) (hA : A.WF) (r : Nat) (h : r < A.rows) :
    keySorted (A.rowPairs r) := by
  have hp : List.Pairwise (· < ·) (A.rowSlice r) :=
    hA.2.2.2.2.2.1 r (List.mem_range.mpr h)
  rw [← WF_keys_rowPairs A hA r] at hp
  exact (List.pairwise_map).mp hp

theorem WF_rowPairs_nodup (A : CSR) (hA : A.WF) (r : Nat) (h : r < A.rows) :
    (keys (A.rowPairs r)).Nodup := by
  have hp : List.Pairwise (· < ·) (A.rowSlice r) :=
    hA.2.2.2.2.2.1 r (List.mem_range.mpr h)
  rw [← WF_keys_rowPairs A hA r] at hp
  exact hp.imp ne_of_lt

theorem WF_rowPairs_keys_lt (A : CSR) (hA : A.WF) (r : Nat) :
    ∀ x ∈ keys (A.rowPairs r), x < A.cols := by
  intro x hx
  rw [WF_keys_rowPairs A hA r] at hx
  apply hA.2.2.2.2.2.2
  exact ((List.take_sublist _ _).trans (List.drop_sublist _ _)).mem hx

theorem WF_rowPairs_out (A : CSR) (hA : A.WF) (r : Nat) (h : A.rows ≤ r) :
    A.rowPairs r = [] := by
  obtain ⟨h1, h2, h3, h4, h5, h6, h7⟩ := hA
  unfold CSR.rowPairs CSR.row_view CSR.rowStart
  rcases eq_or_lt_of_le h with heq | hlt
  · rw [← heq, h4]
    have hz : A.indptr.getD (A.rows + 1) 0 = 0 :=
      List.getD_eq_default _ _ (by omega)
    rw [hz]
    simp
  · have e1 : A.indptr.getD r 0 = 0 := List.getD_eq_default _ _ (by omega)
    have e2 : A.indptr.getD (r + 1) 0 = 0 := List.getD_eq_default _ _ (by omega)
    rw [e1, e2]
    simp

/-! ## Dense-row scan lemmas -/

theorem alfind_append_of_some (l1 l2 : List (Nat × Int)) (x : Nat) (v : Int)
    (h : alfind l1 x = some v) : alfind (l1 ++ l2) x = some v := by
  induction l1 with
  | nil => simp [alfind] at h
  | cons p l1 ih =>
    obtain ⟨c, w⟩ := p
    by_cases hx : x = c <;> simp [alfind, hx] at h ⊢
    · exact h
    · exact ih h

theorem alfind_append_of_none (l1 l2 : List (Nat × Int)) (x : Nat)
    (h : alfind l1 x = none) : alfind (l1 ++ l2) x = alfind l2 x := by
  induction l1 with
  | nil => simp
  | cons p l1 ih =>
    obtain ⟨c, w⟩ := p
    by_cases hx : x = c <;> simp [alfind, hx] at h ⊢
    exact ih h

theorem rowScan_mem (g : Nat → Int) (K : Nat) (p : Nat × Int) (hp : p ∈ rowScan g K) :
    p.1 < K ∧ p.2 = g p.1 ∧ p.2 ≠ 0 := by
  unfold rowScan at hp
  obtain ⟨j, hj, hjp⟩ := List.mem_filterMap.mp hp
  rw [List.mem_range] at hj
  by_cases h : g j = 0
  · simp [h] at hjp
  · rw [if_neg h] at hjp
    obtain rfl : (j, g j) = p := by simpa using hjp
    exact ⟨hj, rfl, h⟩

theorem rowScan_alfind (g : Nat → Int) (K x : Nat) :
    alfind (rowScan g K) x = if x < K ∧ g x ≠ 0 then some (g x) else none := by
  induction K with
  | zero => simp [rowScan, alfind]
  | succ K ih =>
    unfold rowScan at ih ⊢
    rw [List.range_succ, List.filterMap_append]
    by_cases h1 : x < K
    · by_cases h2 : g x = 0
      · have hn : alfind ((List.range K).filterMap
            (fun j => if g j = 0 then none else some (j, g j))) x = none := by
          rw [ih, if_neg (by tauto)]
        rw [alfind_append_of_none _ _ _ hn, if_neg (by tauto)]
        have hxK : x ≠ K := by omega
        by_cases h : g K = 0 <;> simp [alfind, h, hxK]
      · have hs : alfind ((List.range K).filterMap
            (fun j => if g j = 0 then none else some (j, g j))) x = some (g x) := by
          rw [ih, if_pos ⟨h1, h2⟩]
        rw [alfind_append_of_some _ _ _ _ hs, if_pos ⟨by omega, h2⟩]
    · have hn : alfind ((List.range K).filterMap
          (fun j => if g j = 0 then none else some (j, g j))) x = none := by
        rw [ih, if_neg (by tauto)]
      rw [alfind_append_of_none _ _ _ hn]
      by_cases h2 : x = K
      · subst h2
        by_cases h : g x = 0
        · simp [alfind, List.filterMap_cons, h]
        · rw [if_pos ⟨Nat.lt_succ_self x, h⟩]
          simp [alfind, List.filterMap_cons, h]
      · have h3 : ¬(x < K + 1 ∧ g x ≠ 0) := fun hx => absurd hx.1 (by omega)
        rw [if_neg h3]
        by_cases h : g K = 0 <;> simp [alfind, List.filterMap_cons, h, h2]

theorem rowScan_alget (g : Nat → Int) (K x : Nat) :
    alget (rowScan g K) x = if x < K then g x else 0 := by
  rw [alget, rowScan_alfind]
  by_cases h1 : x < K
  · by_cases h2 : g x = 0 <;> simp [h1, h2]
  · simp [h1]

theorem rowScan_keySorted (g : Nat → Int) (K : Nat) : keySorted (rowScan g K) := by
  induction K with
  | zero => simp [rowScan, keySorted]
  | succ K ih =>
    unfold rowScan at ih ⊢
    rw [List.range_succ, List.filterMap_append, keySorted, List.pairwise_append]
    refine ⟨ih, ?_, ?_⟩
    · by_cases h : g K = 0 <;> simp [h, keySorted, List.filterMap_cons]
    · intro a ha b hb
      have ha2 := rowScan_mem g K a ha
      by_cases h : g K = 0
      · simp [h, List.filterMap_cons] at hb
      · simp [h, List.filterMap_cons] at hb
        rw [hb]
        exact ha2.1

theorem rowScan_vals_ne (g : Nat → Int) (K : Nat) :
    ∀ p ∈ rowScan g K, p.2 ≠ 0 :=
  fun p hp => (rowScan_mem g K p hp).2.2

theorem rowScan_sumL (g : Nat → Int) (K c : Nat) :
    sumL (rowScan g K) (fun q => if q.1 = c then q.2 else 0) =
      if c < K then g c else 0 := by
  induction K with
  | zero => simp [rowScan, sumL]
  | succ K ih =>
    unfold rowScan at ih ⊢
    rw [List.range_succ, List.filterMap_append, sumL_append, ih]
    have h2 : sumL (List.filterMap (fun j => if g j = 0 then none else some (j, g j)) [K])
        (fun q => if q.1 = c then q.2 else 0) = if K = c then g K else 0 := by
      by_cases h : g K = 0
      · simp [List.filterMap_cons, h, sumL]
      · by_cases hc : K = c
        · subst hc
          simp [List.filterMap_cons, h, sumL]
        · simp [List.filterMap_cons, h, sumL, hc]
    rw [h2]
    by_cases h1 : c < K
    · rw [if_pos h1, if_neg (by omega), if_pos (by omega), add_zero]
    · by_cases h3 : K = c
      · rw [if_neg h1, if_pos h3, if_pos (by omega), zero_add, h3]
      · rw [if_neg h1, if_neg h3, if_neg (by omega), add_zero]

theorem rowScan_congr (g h : Nat → Int) (K : Nat) (he : ∀ j, j < K → g j = h j) :
    rowScan g K = rowScan h K := by
  induction K with
  | zero => rfl
  | succ K ih =>
    unfold rowScan at ih ⊢
    rw [List.range_succ, List.filterMap_append, List.filterMap_append]
    rw [ih (fun j hj => he j (by omega))]
    congr 1
    have hK := he K (by omega)
    simp [List.filterMap_cons, hK]

theorem alfind_filterMap_range (f : Nat → Option Int) (K x : Nat) :
    alfind ((List.range K).filterMap (fun c => (f c).map (fun v => (c, v)))) x
      = if x < K then f x else none := by
  induction K with
  | zero => simp [alfind]
  | succ K ih =>
    rw [List.range_succ, List.filterMap_append]
    by_cases h1 : x < K
    · cases hfx : f x with
      | some v =>
        have hs : alfind ((List.range K).filterMap
            (fun c => (f c).map (fun v => (c, v)))) x = some v := by
          rw [ih, if_pos h1, hfx]
        rw [alfind_append_of_some _ _ _ _ hs, if_pos (show x < K + 1 by omega)]
      | none =>
        have hn : alfind ((List.range K).filterMap
            (fun c => (f c).map (fun v => (c, v)))) x = none := by
          rw [ih, if_pos h1, hfx]
        rw [alfind_append_of_none _ _ _ hn, if_pos (show x < K + 1 by omega)]
        have hxK : x ≠ K := by omega
        cases hfK : f K with
        | some w => simp [List.filterMap_cons, hfK, alfind, hxK]
        | none => simp [List.filterMap_cons, hfK, alfind]
    · have hn : alfind ((List.range K).filterMap
          (fun c => (f c).map (fun v => (c, v)))) x = none := by
        rw [ih, if_neg h1]
      rw [alfind_append_of_none _ _ _ hn]
      by_cases h2 : x = K
      · subst h2
        rw [if_pos (show x < x + 1 by omega)]
        cases hfK : f x with
        | some w => simp [List.filterMap_cons, hfK, alfind]
        | none => simp [List.filterMap_cons, hfK, alfind]
      · rw [if_neg (show ¬x < K + 1 by omega)]
        cases hfK : f K with
        | some w => simp [List.filterMap_cons, hfK, alfind, h2]
        | none => simp [List.filterMap_cons, hfK, alfind]

theorem alget_filterMap_range (f : Nat → Option Int) (K x : Nat) :
    alget ((List.range K).filterMap (fun c => (f c).map (fun v => (c, v)))) x
      = if x < K then (f x).getD 0 else 0 := by
  rw [alget, alfind_filterMap_range]
  by_cases h : x < K <;> simp [h]

/-! ## Extensionality for sorted zero-free rows -/

theorem keySorted_ext (l1 : List (Nat × Int)) :
    ∀ l2 : List (Nat × Int), keySorted l1 → keySorted l2 →
      (∀ p ∈ l1, p.2 ≠ 0) → (∀ p ∈ l2, p.2 ≠ 0) →
      (∀ x, alget l1 x = alget l2 x) → l1 = l2 := by
  induction l1 with
  | nil =>
    intro l2 _ _ _ hv2 hget
    cases l2 with
    | nil => rfl
    | cons q l2 =>
      obtain ⟨c, v⟩ := q
      have e := hget c
      rw [alget_nil, alget_cons, if_pos rfl] at e
      exact absurd e.symm (hv2 (c, v) (by simp))
  | cons p l1 ih =>
    intro l2 h1 h2 hv1 hv2 hget
    obtain ⟨c, v⟩ := p
    cases l2 with
    | nil =>
      have e := hget c
      rw [alget_nil, alget_cons, if_pos rfl] at e
      exact absurd e (hv1 (c, v) (by simp))
    | cons q l2 =>
      obtain ⟨d, w⟩ := q
      rw [keySorted, List.pairwise_cons] at h1 h2
      obtain ⟨hd1, hs1⟩ := h1
      obtain ⟨hd2, hs2⟩ := h2
      rcases Nat.lt_trichotomy c d with hcd | hcd | hcd
      · have e := hget c
        rw [alget_cons, if_pos rfl, alget_cons, if_neg (by omega)] at e
        have hz : alget l2 c = 0 := by
          apply alget_eq_zero_of_not_mem
          intro hm
          obtain ⟨q2, hq2, he⟩ := List.mem_map.mp hm
          have := hd2 q2 hq2
          omega
        rw [hz] at e
        exact absurd e (hv1 (c, v) (by simp))
      · subst hcd
        have e := hget c
        rw [alget_cons, if_pos rfl, alget_cons, if_pos rfl] at e
        subst e
        have htail : ∀ x, alget l1 x = alget l2 x := by
          intro x
          by_cases hx : x = c
          · subst hx
            rw [alget_eq_zero_of_not_mem l1 x, alget_eq_zero_of_not_mem l2 x]
            · intro hm
              obtain ⟨q2, hq2, he⟩ := List.mem_map.mp hm
              have := hd2 q2 hq2
              omega
            · intro hm
              obtain ⟨q2, hq2, he⟩ := List.mem_map.mp hm
              have := hd1 q2 hq2
              omega
          · have e2 := hget x
            rw [alget_cons, if_neg hx, alget_cons, if_neg hx] at e2
            exact e2
        rw [ih l2 hs1 hs2 (fun p hp => hv1 p (List.mem_cons_of_mem _ hp))
          (fun p hp => hv2 p (List.mem_cons_of_mem _ hp)) htail]
      · have e := hget d
        rw [alget_cons, if_neg (by omega), alget_cons, if_pos rfl] at e
        have hz : alget l1 d = 0 := by
          apply alget_eq_zero_of_not_mem
          intro hm
          obtain ⟨q2, hq2, he⟩ := List.mem_map.mp hm
          have := hd1 q2 hq2
          omega
        rw [hz] at e
        exact absurd e.symm (hv2 (d, w) (by simp))

/-! ## The sparse sum equals the dense sum -/

theorem sum_range_alget (l : List (Nat × Int)) (K : Nat) (g : Nat → Int)
    (hnd : (keys l).Nodup) (hb : ∀ p ∈ l, p.1 < K) :
    sumL (List.range K) (fun k => alget l k * g k) = sumL l (fun p => p.2 * g p.1) := by
  induction l with
  | nil => simp [alget_nil, sumL]
  | cons p l ih =>
    obtain ⟨c, v⟩ := p
    have hcl : c ∉ keys l := by
      rw [keys, List.map_cons, List.nodup_cons] at hnd
      exact hnd.1
    have hnd2 : (keys l).Nodup := by
      rw [keys, List.map_cons, List.nodup_cons] at hnd
      exact hnd.2
    have step : ∀ k, alget ((c, v) :: l) k * g k
        = (if k = c then v * g c else 0) + alget l k * g k := by
      intro k
      rw [alget_cons]
      by_cases hk : k = c
      · subst hk
        rw [if_pos rfl, if_pos rfl, alget_eq_zero_of_not_mem l _ hcl]
        ring
      · rw [if_neg hk, if_neg hk]
        ring
    calc sumL (List.range K) (fun k => alget ((c, v) :: l) k * g k)
        = sumL (List.range K)
            (fun k => (if k = c then v * g c else 0) + alget l k * g k) :=
          sumL_congr (fun k _ => step k)
      _ = sumL (List.range K) (fun k => if k = c then v * g c else 0)
            + sumL (List.range K) (fun k => alget l k * g k) :=
          sumL_add _ _ _
      _ = v * g c + sumL l (fun p => p.2 * g p.1) := by
          rw [sum_range_ite, if_pos (hb (c, v) (by simp)),
            ih hnd2 (fun p hp => hb p (List.mem_cons_of_mem _ hp))]
      _ = sumL ((c, v) :: l) (fun p => p.2 * g p.1) :=
          (sumL_cons (c, v) l (fun p => p.2 * g p.1)).symm

/-! ## Matrix-product accumulation lemmas -/

theorem foldMul_keySorted (pairs acc : List (Nat × Int)) (v : Int)
    (h : keySorted acc) :
    keySorted (pairs.foldl (fun a2 jw => insertSum jw.1 (v * jw.2) a2) acc) := by
  induction pairs generalizing acc with
  | nil => exact h
  | cons jw pairs ih => exact ih _ (insertSum_keySorted _ _ _ h)

theorem foldMul_alget (pairs acc : List (Nat × Int)) (v : Int) (x : Nat)
    (hnd : (keys pairs).Nodup) (hacc : keySorted acc) :
    alget (pairs.foldl (fun a2 jw => insertSum jw.1 (v * jw.2) a2) acc) x
      = alget acc x + v * alget pairs x := by
  induction pairs generalizing acc with
  | nil => simp [alget_nil]
  | cons jw pairs ih =>
    obtain ⟨j, w⟩ := jw
    have hj : j ∉ keys pairs := by
      rw [keys, List.map_cons, List.nodup_cons] at hnd
      exact hnd.1
    have hnd2 : (keys pairs).Nodup := by
      rw [keys, List.map_cons, List.nodup_cons] at hnd
      exact hnd.2
    rw [List.foldl_cons, ih _ hnd2 (insertSum_keySorted _ _ _ hacc),
      insertSum_alget _ _ _ _ hacc, alget_cons]
    by_cases hx : x = j
    · subst hx
      rw [if_pos rfl, if_pos rfl, alget_eq_zero_of_not_mem pairs _ hj]
      ring
    · rw [if_neg hx, if_neg hx]
      ring

theorem matRow_alget (arow : List (Nat × Int)) (B : CSR) (acc : List (Nat × Int)) (x : Nat)
    (hacc : keySorted acc)
    (hnd : ∀ cv ∈ arow, (keys (B.rowPairs cv.1)).Nodup) :
    alget (arow.foldl (fun acc2 cv => (B.rowPairs cv.1).foldl
        (fun a2 jw => insertSum jw.1 (cv.2 * jw.2) a2) acc2) acc) x
      = alget acc x + sumL arow (fun cv => cv.2 * alget (B.rowPairs cv.1) x) := by
  induction arow generalizing acc with
  | nil => simp [sumL]
  | cons cv arow ih =>
    rw [List.foldl_cons,
      ih _ (foldMul_keySorted _ _ _ hacc) (fun q hq => hnd q (List.mem_cons_of_mem _ hq)),
      foldMul_alget _ _ _ _ (hnd cv (by simp)) hacc, sumL_cons]
    ring

theorem matRowAcc_alget (B : CSR) (arow : List (Nat × Int)) (x : Nat)
    (hnd : ∀ cv ∈ arow, (keys (B.rowPairs cv.1)).Nodup) :
    alget (matRowAcc B arow) x
      = sumL arow (fun cv => cv.2 * alget (B.rowPairs cv.1) x) := by
  have h := matRow_alget arow B [] x (by simp [keySorted]) hnd
  simpa [matRowAcc, alget_nil] using h

/-! ## Dense bridge lemmas -/

theorem to_dense_length (A : CSR) : A.to_dense.length = A.rows := by
  simp [CSR.to_dense]

theorem denseGet_to_dense (A : CSR) (r c : Nat) (hr : r < A.rows) (hc : c < A.cols) :
    denseGet A.to_dense r c = A.get r c := by
  unfold denseGet CSR.to_dense
  rw [getD_map_range _ _ _ _ hr, getD_map_range _ _ _ _ hc]

theorem dense_ext (M : List (List Int)) (cols : Nat)
    (hrect : ∀ row ∈ M, row.length = cols) :
    M = (List.range M.length).map
      (fun r => (List.range cols).map (fun c => denseGet M r c)) := by
  apply List.ext_getElem
  · simp
  · intro i h1 h2
    rw [List.getElem_map, List.getElem_range]
    apply List.ext_getElem
    · simp [hrect M[i] (List.getElem_mem h1)]
    · intro j hj1 hj2
      rw [List.getElem_map, List.getElem_range]
      unfold denseGet
      rw [List.getD_eq_getElem _ _ h1, List.getD_eq_getElem _ _ hj1]

/-! ## Matrix product correctness -/

theorem matmul_ok_to_dense (A B : CSR) (hA : A.WF) (hB : B.WF) (hAB : A.cols = B.rows) :
    ∃ C, A.matmul B = .ok C ∧
      C.to_dense = denseMul A.to_dense B.to_dense B.cols := by
  refine ⟨CSR.ofRows A.rows B.cols
    ((List.range A.rows).map (fun r => matRowAcc B (A.rowPairs r))), ?_, ?_⟩
  · rw [CSR.matmul, if_pos hAB]
  · have hP : A.to_dense.length = A.rows := to_dense_length A
    have hQ : B.to_dense.length = B.rows := to_dense_length B
    unfold denseMul
    rw [hP, hQ]
    show (List.range A.rows).map _ = _
    apply List.map_congr_left
    intro r hr
    rw [List.mem_range] at hr
    show (List.range B.cols).map _ = _
    apply List.map_congr_left
    intro c hc
    rw [List.mem_range] at hc
    have hndB : ∀ cv ∈ A.rowPairs r, (keys (B.rowPairs cv.1)).Nodup := by
      intro cv hcv
      have hk : cv.1 ∈ keys (A.rowPairs r) :=
        List.mem_map.mpr ⟨cv, hcv, rfl⟩
      have := WF_rowPairs_keys_lt A hA r cv.1 hk
      exact WF_rowPairs_nodup B hB cv.1 (by omega)
    have hCrow : (CSR.ofRows A.rows B.cols
        ((List.range A.rows).map (fun r => matRowAcc B (A.rowPairs r)))).rowPairs r
        = matRowAcc B (A.rowPairs r) := by
      rw [rowPairs_ofRows _ _ _ _ (by simpa using hr)]
      rw [getD_map_range _ _ _ _ hr]
    show CSR.get _ r c = _
    rw [CSR.get, hCrow, matRowAcc_alget B _ c hndB]
    have hrhs : sumL (List.range B.rows)
        (fun k => denseGet A.to_dense r k * denseGet B.to_dense k c)
        = sumL (List.range B.rows) (fun k => alget (A.rowPairs r) k * B.get k c) := by
      apply sumL_congr
      intro k hk
      rw [List.mem_range] at hk
      rw [denseGet_to_dense A r k hr (by omega), denseGet_to_dense B k c hk hc]
      rfl
    rw [hrhs, ← hAB]
    rw [sum_range_alget (A.rowPairs r) A.cols (fun k => B.get k c)
      (WF_rowPairs_nodup A hA r hr)
      (fun p hp => WF_rowPairs_keys_lt A hA r p.1 (List.mem_map.mpr ⟨p, hp, rfl⟩))]
    rfl

/-! ## COO conversion lemmas -/

theorem to_csr_rowPairs (b : COO) (r : Nat) (hr : r < b.rows) :
    (b.to_csr).rowPairs r = buildRow (b.rowTriples r) := by
  unfold COO.to_csr
  rw [rowPairs_ofRows _ _ _ _ (by simpa using hr), getD_map_range _ _ _ _ hr]

theorem to_csr_get (b : COO) (r c : Nat) (hr : r < b.rows) :
    (b.to_csr).get r c = sumL b.toTriples
      (fun t => if t.1 = r ∧ t.2.1 = c then t.2.2 else 0) := by
  rw [CSR.get, to_csr_rowPairs b r hr, buildRow_alget]
  unfold COO.rowTriples
  rw [sumL_map, sumL_filter]
  apply sumL_congr
  intro t ht
  by_cases h1 : t.1 = r
  · by_cases h2 : t.2.1 = c <;> simp [h1, h2]
  · simp [h1]

theorem zip3_maps {α β γ : Type} (ts : List (α × β × γ)) :
    (ts.map Prod.fst).zip ((ts.map (fun t => t.2.1)).zip (ts.map (fun t => t.2.2)))
      = ts := by
  induction ts with
  | nil => rfl
  | cons t ts ih => simp [ih]

theorem toTriples_denseToCOO (cols : Nat) (M : List (List Int)) :
    (denseToCOO cols M).toTriples
      = (List.range M.length).flatMap
          (fun i => (rowScan (denseGet M i) cols).map (fun q => (i, q))) := by
  unfold denseToCOO COO.toTriples
  exact zip3_maps _

theorem denseToCOO_get (cols : Nat) (M : List (List Int)) (r c : Nat)
    (hr : r < M.length) (hc : c < cols) :
    ((denseToCOO cols M).to_csr).get r c = denseGet M r c := by
  have hrows : (denseToCOO cols M).rows = M.length := rfl
  rw [to_csr_get _ r c (by rw [hrows]; exact hr), toTriples_denseToCOO, sumL_flatMap]
  have hinner : ∀ i ∈ List.range M.length,
      sumL ((rowScan (denseGet M i) cols).map (fun q => (i, q)))
          (fun t => if t.1 = r ∧ t.2.1 = c then t.2.2 else 0)
        = if i = r then denseGet M r c else 0 := by
    intro i _
    rw [sumL_map]
    by_cases hir : i = r
    · subst hir
      have he : ∀ q ∈ rowScan (denseGet M i) cols,
          (if i = i ∧ q.1 = c then q.2 else 0) = (if q.1 = c then q.2 else 0) := by
        intro q _
        by_cases hq : q.1 = c <;> simp [hq]
      rw [sumL_congr he, rowScan_sumL, if_pos hc, if_pos rfl]
    · have he : ∀ q ∈ rowScan (denseGet M i) cols,
          (if i = r ∧ q.1 = c then q.2 else 0) = 0 := by
        intro q _
        simp [hir]
      rw [sumL_congr he, sumL_zero, if_neg hir]
  rw [sumL_congr hinner, sum_range_ite, if_pos hr]

theorem dense_coo_csr_roundtrip (cols : Nat) (M : List (List Int))
    (hrect : ∀ row ∈ M, row.length = cols) :
    ((denseToCOO cols M).to_csr).to_dense = M := by
  conv_rhs => rw [dense_ext M cols hrect]
  show (List.range M.length).map _ = _
  apply List.map_congr_left
  intro r hr
  rw [List.mem_range] at hr
  apply List.map_congr_left
  intro c hc
  rw [List.mem_range] at hc
  exact denseToCOO_get cols M r c hr hc

/-! ## Builder invariants are preserved and yield well-formed stores -/

theorem add_preserves (b : COO) (row col v : Int) (b2 : COO)
    (hb : b.Bounded) (h : b.add row col v = .ok b2) :
    b2.Bounded ∧ b2.rows = b.rows ∧ b2.cols = b.cols := by
  unfold COO.add at h
  by_cases hcond : 0 ≤ row ∧ row < (b.rows : Int) ∧ 0 ≤ col ∧ col < (b.cols : Int)
  · rw [if_pos hcond] at h
    obtain ⟨hc1, hc2, hc3, hc4⟩ := hcond
    injection h with h
    subst h
    obtain ⟨hl1, hl2, hbd⟩ := hb
    refine ⟨⟨by simp [hl1], by simp [hl2], ?_⟩, rfl, rfl⟩
    intro t ht
    have hzip : (COO.mk b.rows b.cols (b.row_idx ++ [row.toNat])
        (b.col_idx ++ [col.toNat]) (b.value ++ [v])).toTriples
        = b.toTriples ++ [(row.toNat, col.toNat, v)] := by
      unfold COO.toTriples
      rw [List.zip_append (by simp [hl2]), List.zip_append
        (by rw [List.length_zip, hl1, hl2, Nat.min_self])]
      rfl
    rw [hzip] at ht
    rcases List.mem_append.mp ht with h1 | h1
    · exact hbd t h1
    · simp at h1
      subst h1
      constructor
      · show row.toNat < b.rows
        omega
      · show col.toNat < b.cols
        omega
  · rw [if_neg hcond] at h
    cases h

theorem applyAdds_bounded (ops : List (Int × Int × Int)) (b : COO) (hb : b.Bounded) :
    (b.applyAdds ops).Bounded ∧ (b.applyAdds ops).rows = b.rows ∧
      (b.applyAdds ops).cols = b.cols := by
  induction ops generalizing b with
  | nil => exact ⟨hb, rfl, rfl⟩
  | cons op ops ih =>
    unfold COO.applyAdds
    cases hadd : b.add op.1 op.2.1 op.2.2 with
    | ok b2 =>
      obtain ⟨h1, h2, h3⟩ := add_preserves b op.1 op.2.1 op.2.2 b2 hb hadd
      obtain ⟨g1, g2, g3⟩ := ih b2 h1
      exact ⟨g1, by rw [g2, h2], by rw [g3, h3]⟩
    | error e => exact ih b hb

theorem empty_bounded (rows cols : Nat) : (COO.empty rows cols).Bounded := by
  refine ⟨rfl, rfl, ?_⟩
  intro t ht
  simp [COO.empty, COO.toTriples] at ht

theorem to_csr_WF_of_bounded (b : COO) (hb : b.Bounded) : (b.to_csr).WF := by
  apply ofRows_WF
  · simp
  · intro l hl
    obtain ⟨r, hr, rfl⟩ := List.mem_map.mp hl
    exact buildRow_keySorted _
  · intro l hl p hp
    obtain ⟨r, hr, rfl⟩ := List.mem_map.mp hl
    have hk : p.1 ∈ (b.rowTriples r).map Prod.fst :=
      (mem_keys_buildRow _ _).mp (List.mem_map.mpr ⟨p, hp, rfl⟩)
    obtain ⟨q, hq, he⟩ := List.mem_map.mp hk
    unfold COO.rowTriples at hq
    obtain ⟨t, ht, rfl⟩ := List.mem_map.mp hq
    have := (hb.2.2 t (List.mem_of_mem_filter ht)).2
    rw [← he]
    exact this

theorem set_preserves (b : LIL) (row col v : Int) (b2 : LIL)
    (hb : b.Inv) (h : b.set row col v = .ok b2) :
    b2.Inv ∧ b2.rows = b.rows ∧ b2.cols = b.cols := by
  unfold LIL.set at h
  by_cases hcond : 0 ≤ row ∧ row < (b.rows : Int) ∧ 0 ≤ col ∧ col < (b.cols : Int)
  · rw [if_pos hcond] at h
    obtain ⟨hc1, hc2, hc3, hc4⟩ := hcond
    injection h with h
    subst h
    obtain ⟨hl, hrows⟩ := hb
    refine ⟨⟨by simp [hl], ?_⟩, rfl, rfl⟩
    intro l hml
    rcases List.mem_or_eq_of_mem_set hml with hold | hnew
    · exact hrows l hold
    · subst hnew
      have hin : row.toNat < b.rowsData.length := by
        rw [hl]
        omega
      have hmem : b.rowsData.getD row.toNat [] ∈ b.rowsData := by
        rw [List.getD_eq_getElem _ _ hin]
        exact List.getElem_mem hin
      obtain ⟨hsorted, hbound⟩ := hrows _ hmem
      constructor
      · exact insertSet_keySorted _ _ _ hsorted
      · intro p hp
        show p.1 < b.cols
        have : p.1 ∈ keys (insertSet col.toNat v (b.rowsData.getD row.toNat [])) :=
          List.mem_map.mpr ⟨p, hp, rfl⟩
        rcases (mem_keys_insertSet _ _ _ _).mp this with he | he
        · rw [he]
          omega
        · obtain ⟨q, hq, hqe⟩ := List.mem_map.mp he
          rw [← hqe]
          exact hbound q hq
  · rw [if_neg hcond] at h
    cases h

theorem applySets_inv (ops : List (Int × Int × Int)) (b : LIL) (hb : b.Inv) :
    (b.applySets ops).Inv ∧ (b.applySets ops).rows = b.rows ∧
      (b.applySets ops).cols = b.cols := by
  induction ops generalizing b with
  | nil => exact ⟨hb, rfl, rfl⟩
  | cons op ops ih =>
    unfold LIL.applySets
    cases hset : b.set op.1 op.2.1 op.2.2 with
    | ok b2 =>
      obtain ⟨h1, h2, h3⟩ := set_preserves b op.1 op.2.1 op.2.2 b2 hb hset
      obtain ⟨g1, g2, g3⟩ := ih b2 h1
      exact ⟨g1, by rw [g2, h2], by rw [g3, h3]⟩
    | error e => exact ih b hb

theorem empty_inv (rows cols : Nat) : (LIL.empty rows cols).Inv := by
  refine ⟨by simp [LIL.empty], ?_⟩
  intro l hl
  simp [LIL.empty] at hl
  rcases hl with ⟨_, rfl⟩
  exact ⟨by simp [keySorted], by simp⟩

theorem lil_to_csr_WF_of_inv (b : LIL) (hb : b.Inv) : (b.to_csr).WF := by
  apply ofRows_WF
  · exact hb.1
  · intro l hl
    exact (hb.2 l hl).1
  · intro l hl p hp
    exact (hb.2 l hl).2 p hp

/-! ## CSC conversion lemmas -/

theorem to_csc_colPairs (A : CSR) (c : Nat) (hc : c < A.cols) :
    (A.to_csc).colPairs c = (List.range A.rows).filterMap
      (fun r => (alfind (A.rowPairs r) c).map (fun v => (r, v))) := by
  unfold CSR.to_csc
  rw [colPairs_ofCols _ _ _ _ (by simpa using hc), getD_map_range _ _ _ _ hc]

theorem to_csc_get (A : CSR) (r c : Nat) (hr : r < A.rows) (hc : c < A.cols) :
    (A.to_csc).get r c = A.get r c := by
  rw [CSC.get, to_csc_colPairs A c hc,
    alget_filterMap_range (fun r => alfind (A.rowPairs r) c) A.rows r, if_pos hr]
  rfl

theorem csc_to_csr_rowPairs (C : CSC) (r : Nat) (hr : r < C.rows) :
    (C.to_csr).rowPairs r = (List.range C.cols).filterMap
      (fun c => (alfind (C.colPairs c) r).map (fun v => (c, v))) := by
  unfold CSC.to_csr
  rw [rowPairs_ofRows _ _ _ _ (by simpa using hr), getD_map_range _ _ _ _ hr]

theorem csc_to_csr_get (C : CSC) (r c : Nat) (hr : r < C.rows) (hc : c < C.cols) :
    (C.to_csr).get r c = C.get r c := by
  rw [CSR.get, csc_to_csr_rowPairs C r hr,
    alget_filterMap_range (fun c => alfind (C.colPairs c) r) C.cols c, if_pos hc]
  rfl

theorem denseToCSR_rowPairs (cols : Nat) (M : List (List Int)) (r : Nat)
    (hr : r < M.length) :
    (denseToCSR cols M).rowPairs r = rowScan (denseGet M r) cols := by
  unfold denseToCSR
  rw [rowPairs_ofRows _ _ _ _ (by simpa using hr), getD_map_range _ _ _ _ hr]

theorem denseToCSR_get (cols : Nat) (M : List (List Int)) (r c : Nat)
    (hr : r < M.length) :
    (denseToCSR cols M).get r c = if c < cols then denseGet M r c else 0 := by
  rw [CSR.get, denseToCSR_rowPairs cols M r hr, rowScan_alget]

theorem dense_csr_csc_csr_roundtrip (cols : Nat) (M : List (List Int))
    (hrect : ∀ row ∈ M, row.length = cols) :
    (((denseToCSR cols M).to_csc).to_csr).to_dense = M := by
  conv_rhs => rw [dense_ext M cols hrect]
  show (List.range M.length).map _ = _
  apply List.map_congr_left
  intro r hr
  rw [List.mem_range] at hr
  apply List.map_congr_left
  intro c hc
  rw [List.mem_range] at hc
  have hc2 : c < cols := hc
  show (((denseToCSR cols M).to_csc).to_csr).get r c = denseGet M r c
  rw [csc_to_csr_get ((denseToCSR cols M).to_csc) r c hr hc2,
    to_csc_get (denseToCSR cols M) r c hr hc2,
    denseToCSR_get cols M r c hr, if_pos hc2]

/-! ## Element-wise multiply lemmas -/

theorem interRow_alget (la lb : List (Nat × Int)) (x : Nat) :
    alget (interRow la lb) x = alget la x * alget lb x := by
  induction la with
  | nil => simp [interRow, alget_nil]
  | cons p la ih =>
    obtain ⟨c, v⟩ := p
    unfold interRow at ih ⊢
    rw [List.filterMap_cons]
    cases hf : alfind lb c with
    | none =>
      simp only [hf, Option.map_none']
      by_cases hx : x = c
      · subst hx
        rw [ih, alget_cons, if_pos rfl]
        have hz : alget lb x = 0 := by simp [alget, hf]
        rw [hz]
        ring
      · rw [ih, alget_cons, if_neg hx]
    | some w =>
      simp only [hf, Option.map_some']
      by_cases hx : x = c
      · subst hx
        rw [alget_cons, if_pos rfl, alget_cons, if_pos rfl]
        have hw : alget lb x = w := by simp [alget, hf]
        rw [hw]
      · rw [alget_cons, if_neg hx, alget_cons, if_neg hx, ih]

theorem mem_keys_interRow (la lb : List (Nat × Int)) (x : Nat) :
    x ∈ keys (interRow la lb) ↔ x ∈ keys la ∧ x ∈ keys lb := by
  unfold interRow keys
  constructor
  · intro hx
    obtain ⟨p, hp, rfl⟩ := List.mem_map.mp hx
    obtain ⟨cv, hcv, he⟩ := List.mem_filterMap.mp hp
    cases hf : alfind lb cv.1 with
    | none =>
      rw [hf] at he
      simp at he
    | some w =>
      rw [hf] at he
      simp only [Option.map_some', Option.some.injEq] at he
      constructor
      · rw [← he]
        exact List.mem_map.mpr ⟨cv, hcv, rfl⟩
      · rw [← he]
        show cv.1 ∈ keys lb
        exact (alfind_isSome lb cv.1).mp (by simp [hf])
  · rintro ⟨h1, h2⟩
    obtain ⟨cv, hcv, rfl⟩ := List.mem_map.mp h1
    have hsome : (alfind lb cv.1).isSome := (alfind_isSome lb cv.1).mpr h2
    obtain ⟨w, hw⟩ := Option.isSome_iff_exists.mp hsome
    refine List.mem_map.mpr ⟨(cv.1, cv.2 * w), ?_, rfl⟩
    exact List.mem_filterMap.mpr ⟨cv, hcv, by rw [hw]; rfl⟩

/-! ## Row views are exactly the dense row scans -/

theorem row_view_exact (A : CSR) (r : Nat) (hA : A.WF) (hz : A.NoZeros)
    (hr : r < A.rows) :
    A.rowPairs r = rowScan (fun c => denseGet A.to_dense r c) A.cols := by
  have hscan : rowScan (fun c => denseGet A.to_dense r c) A.cols
      = rowScan (fun c => A.get r c) A.cols :=
    rowScan_congr _ _ _ (fun j hj => denseGet_to_dense A r j hr hj)
  rw [hscan]
  apply keySorted_ext
  · exact WF_rowPairs_sorted A hA r hr
  · exact rowScan_keySorted _ _
  · intro p hp
    obtain ⟨a, bv⟩ := p
    apply hz
    have hb := (List.of_mem_zip hp).2
    exact ((List.take_sublist _ _).trans (List.drop_sublist _ _)).mem hb
  · exact rowScan_vals_ne _ _
  · intro x
    rw [rowScan_alget]
    by_cases hx : x < A.cols
    · rw [if_pos hx]
      rfl
    · rw [if_neg hx]
      apply alget_eq_zero_of_not_mem
      intro hm
      have := WF_rowPairs_keys_lt A hA r x hm
      omega

/-! ## The claims -/

/-- C1: for the 4×4 tutorial matrix `A`, `A.matmul(A).to_dense()` equals the
dense product of the equivalent dense array (entries (1,1)=9, (2,1)=4,
(3,0)=2, others as listed); and in general, for every pair of well-formed
CSR stores with matching inner dimensions, `matmul` followed by `to_dense`
equals the dense matrix product of the operands' dense forms. -/
theorem C1_matmul_correctness :
    (tutA.to_dense = tutM ∧
      (∃ C, tutA.matmul tutA = .ok C ∧ C.to_dense = tutAA) ∧
      tutAA = denseMul tutM tutM 4) ∧
    ∀ A B : CSR, A.WF → B.WF → A.cols = B.rows →
      ∃ C, A.matmul B = .ok C ∧
        C.to_dense = denseMul A.to_dense B.to_dense B.cols := by
  constructor
  · refine ⟨by decide, ?_, by decide⟩
    obtain ⟨C, h1, h2⟩ := matmul_ok_to_dense tutA tutA (by decide) (by decide) rfl
    refine ⟨C, h1, ?_⟩
    rw [h2]
    decide
  · intro A B hA hB hAB
    exact matmul_ok_to_dense A B hA hB hAB

/-- Witness for C1: the general statement applied to the tutorial store. -/
theorem C1_witness :
    ∃ C, tutA.matmul tutA = .ok C ∧
      C.to_dense = denseMul tutA.to_dense tutA.to_dense tutA.cols :=
  C1_matmul_correctness.2 tutA tutA (by decide) (by decide) rfl

/-- C2: for every rectangular dense matrix, dense → COO → CSR → `to_dense`
reproduces the original exactly, and likewise dense → CSR → CSC → CSR →
`to_dense`. -/
theorem C2_roundtrips : ∀ (cols : Nat) (M : List (List Int)),
    (∀ row ∈ M, row.length = cols) →
    ((denseToCOO cols M).to_csr).to_dense = M ∧
    (((denseToCSR cols M).to_csc).to_csr).to_dense = M :=
  fun cols M h =>
    ⟨dense_coo_csr_roundtrip cols M h, dense_csr_csc_csr_roundtrip cols M h⟩

/-- Witness for C2: both round trips at the notebook's dense matrix. -/
theorem C2_witness :
    ((denseToCOO 4 tutM).to_csr).to_dense = tutM ∧
    (((denseToCSR 4 tutM).to_csc).to_csr).to_dense = tutM :=
  C2_roundtrips 4 tutM (by decide)

/-- C3: every CSR produced by a sequence of COO `add` requests, or by a
sequence of LIL `set` requests, followed by conversion to CSR, satisfies the
invariants: `indptr` has length rows+1, is non-decreasing, starts at 0 and
ends at `nnz = len(indices) = len(data)`; each row slice of `indices` is
unique and ascending; all column indices are below `cols`. -/
theorem C3_invariants : ∀ (rows cols : Nat) (ops : List (Int × Int × Int)),
    (((COO.empty rows cols).applyAdds ops).to_csr).WF ∧
    (((LIL.empty rows cols).applySets ops).to_csr).WF := by
  intro rows cols ops
  constructor
  · exact to_csr_WF_of_bounded _ (applyAdds_bounded ops _ (empty_bounded rows cols)).1
  · exact lil_to_csr_WF_of_inv _ (applySets_inv ops _ (empty_inv rows cols)).1

/-- C4: `matmul` demands matching inner dimensions, failing with
`DimensionMismatch` otherwise (in particular on a 4×4 against a 3×3), and on
success the output has `rows = self.rows` and `cols = other.cols`. -/
theorem C4_dimension_check :
    (tutA.matmul tutB3 = .error .dimensionMismatch) ∧
    ∀ A B : CSR,
      (A.cols ≠ B.rows → A.matmul B = .error .dimensionMismatch) ∧
      (A.cols = B.rows →
        ∃ C, A.matmul B = .ok C ∧ C.rows = A.rows ∧ C.cols = B.cols) := by
  refine ⟨by rfl, ?_⟩
  intro A B
  constructor
  · intro h
    rw [CSR.matmul, if_neg h]
  · intro h
    refine ⟨CSR.ofRows A.rows B.cols
      ((List.range A.rows).map (fun r => matRowAcc B (A.rowPairs r))), ?_, rfl, rfl⟩
    rw [CSR.matmul, if_pos h]

/-- Witness for C4: the mismatch case at 4×4 vs 3×3 and the success case at
the tutorial store. -/
theorem C4_witness :
    tutA.matmul tutB3 = .error .dimensionMismatch ∧
    ∃ C, tutA.matmul tutA = .ok C ∧ C.rows = tutA.rows ∧ C.cols = tutA.cols :=
  ⟨(C4_dimension_check.2 tutA tutB3).1 (by decide),
   (C4_dimension_check.2 tutA tutA).2 rfl⟩

/-- C5: a COO builder whose triples at position (r,c) are exactly two with
values `a` and `b` converts to a CSR with a single stored entry at that
position, of value `a + b`; in general conversion sums all values sharing a
(row, col) pair. -/
theorem C5_duplicate_summation :
    (∀ (bb : COO) (r c : Nat) (a b : Int), r < bb.rows →
      bb.toTriples.filter (fun t => t.1 == r && t.2.1 == c) = [(r, c, a), (r, c, b)] →
      (keys ((bb.to_csr).rowPairs r)).count c = 1 ∧
        (bb.to_csr).get r c = a + b) ∧
    ∀ (bb : COO) (r c : Nat), r < bb.rows →
      (bb.to_csr).get r c = sumL bb.toTriples
        (fun t => if t.1 = r ∧ t.2.1 = c then t.2.2 else 0) := by
  constructor
  · intro bb r c a b hr hfilter
    constructor
    · have hmem : (r, c, a) ∈ bb.toTriples := by
        apply List.mem_of_mem_filter (p := fun t => t.1 == r && t.2.1 == c)
        rw [hfilter]
        simp
      have hrt : ((c : Nat), a) ∈ bb.rowTriples r := by
        unfold COO.rowTriples
        exact List.mem_map.mpr ⟨(r, c, a), List.mem_filter.mpr ⟨hmem, by simp⟩, rfl⟩
      have hkey : c ∈ keys (buildRow (bb.rowTriples r)) :=
        (mem_keys_buildRow _ _).mpr (List.mem_map.mpr ⟨(c, a), hrt, rfl⟩)
      have hnd : (keys (buildRow (bb.rowTriples r))).Nodup :=
        ((List.pairwise_map).mpr (buildRow_keySorted _)).imp ne_of_lt
      rw [to_csr_rowPairs bb r hr]
      exact List.count_eq_one_of_mem hnd hkey
    · rw [to_csr_get bb r c hr]
      have hcongr : sumL bb.toTriples
          (fun t => if t.1 = r ∧ t.2.1 = c then t.2.2 else 0)
          = sumL bb.toTriples
            (fun t => if (t.1 == r && t.2.1 == c) then t.2.2 else 0) := by
        apply sumL_congr
        intro t _
        by_cases h1 : t.1 = r
        · by_cases h2 : t.2.1 = c <;> simp [h1, h2]
        · simp [h1]
      rw [hcongr, ← sumL_filter, hfilter, sumL_cons, sumL_cons, sumL_nil]
      ring
  · intro bb r c hr
    exact to_csr_get bb r c hr

/-- Witness for C5: a builder holding (0,1)↦2 and (0,1)↦5 converts to a CSR
with the single entry 7 there; the general sum at the tutorial store. -/
theorem C5_witness :
    ((keys ((COO.mk 1 2 [0, 0] [1, 1] [2, 5]).to_csr.rowPairs 0)).count 1 = 1 ∧
      (COO.mk 1 2 [0, 0] [1, 1] [2, 5]).to_csr.get 0 1 = 2 + 5) ∧
    tutCOO.to_csr.get 2 1 = sumL tutCOO.toTriples
      (fun t => if t.1 = 2 ∧ t.2.1 = 1 then t.2.2 else 0) :=
  ⟨C5_duplicate_summation.1 (COO.mk 1 2 [0, 0] [1, 1] [2, 5]) 0 1 2 5
      (by decide) (by decide),
   C5_duplicate_summation.2 tutCOO 2 1 (by decide)⟩

/-- C6: `elementwise_multiply` requires identical shape, failing with
`DimensionMismatch` otherwise; the output's rows contain exactly the column
positions present in both operand rows, each set to the product of the two
stored values. -/
theorem C6_elementwise :
    ∀ A B : CSR,
      (¬(A.rows = B.rows ∧ A.cols = B.cols) →
        A.elementwise_multiply B = .error .dimensionMismatch) ∧
      ((A.rows = B.rows ∧ A.cols = B.cols) →
        ∃ C, A.elementwise_multiply B = .ok C ∧
          C.rows = A.rows ∧ C.cols = A.cols ∧
          ∀ r, r < A.rows → ∀ k : Nat,
            (k ∈ keys (C.rowPairs r) ↔
              k ∈ keys (A.rowPairs r) ∧ k ∈ keys (B.rowPairs r)) ∧
            alget (C.rowPairs r) k
              = alget (A.rowPairs r) k * alget (B.rowPairs r) k) := by
  intro A B
  constructor
  · intro h
    rw [CSR.elementwise_multiply, if_neg h]
  · intro h
    refine ⟨CSR.ofRows A.rows A.cols ((List.range A.rows).map
      (fun r => interRow (A.rowPairs r) (B.rowPairs r))),
      by rw [CSR.elementwise_multiply, if_pos h], rfl, rfl, ?_⟩
    intro r hr k
    have hrow : (CSR.ofRows A.rows A.cols ((List.range A.rows).map
        (fun r => interRow (A.rowPairs r) (B.rowPairs r)))).rowPairs r
        = interRow (A.rowPairs r) (B.rowPairs r) := by
      rw [rowPairs_ofRows _ _ _ _ (by simpa using hr), getD_map_range _ _ _ _ hr]
    rw [hrow]
    exact ⟨mem_keys_interRow _ _ _, interRow_alget _ _ _⟩

/-- Witness for C6: the mismatch case and the intersection-product case at
the tutorial store. -/
theorem C6_witness :
    tutA.elementwise_multiply tutB3 = .error .dimensionMismatch ∧
    ∃ C, tutA.elementwise_multiply tutA = .ok C ∧
      C.rows = tutA.rows ∧ C.cols = tutA.cols ∧
      ∀ r, r < tutA.rows → ∀ k : Nat,
        (k ∈ keys (C.rowPairs r) ↔
          k ∈ keys (tutA.rowPairs r) ∧ k ∈ keys (tutA.rowPairs r)) ∧
        alget (C.rowPairs r) k
          = alget (tutA.rowPairs r) k * alget (tutA.rowPairs r) k :=
  ⟨(C6_elementwise tutA tutB3).1 (by decide),
   (C6_elementwise tutA tutA).2 ⟨rfl, rfl⟩⟩

/-- C7: for every well-formed, zero-free CSR store and row `r < rows`, the
zipped `row_view(r)` is exactly the (col, value) list a naive scan of the
equivalent dense matrix finds in row `r`; and `row_view` is literally the
pair of `indptr`-delimited slices of the existing `indices` and `data`
arrays — no new store. -/
theorem C7_row_isolation : ∀ (A : CSR) (r : Nat), A.WF → A.NoZeros → r < A.rows →
    A.rowPairs r = rowScan (fun c => denseGet A.to_dense r c) A.cols ∧
    A.row_view r
      = ((A.indices.drop (A.rowStart r)).take (A.rowStart (r + 1) - A.rowStart r),
         (A.data.drop (A.rowStart r)).take (A.rowStart (r + 1) - A.rowStart r)) :=
  fun A r hA hz hr => ⟨row_view_exact A r hA hz hr, rfl⟩

/-- Witness for C7: row 3 of the tutorial store. -/
theorem C7_witness :
    tutA.rowPairs 3 = rowScan (fun c => denseGet tutA.to_dense 3 c) tutA.cols ∧
    tutA.row_view 3
      = ((tutA.indices.drop (tutA.rowStart 3)).take
            (tutA.rowStart 4 - tutA.rowStart 3),
         (tutA.data.drop (tutA.rowStart 3)).take
            (tutA.rowStart 4 - tutA.rowStart 3)) :=
  C7_row_isolation tutA 3 (by decide) (by decide) (by decide)

/-- C8: COO `add` appends the triple exactly when both coordinates are
non-negative and below the declared dimensions, and fails with `IndexError`
otherwise (never clamping); on failure no new builder is produced. -/
theorem C8_add_bounds : ∀ (b : COO) (row col v : Int),
    ((0 ≤ row ∧ row < (b.rows : Int) ∧ 0 ≤ col ∧ col < (b.cols : Int)) →
      b.add row col v = .ok { b with
        row_idx := b.row_idx ++ [row.toNat],
        col_idx := b.col_idx ++ [col.toNat],
        value := b.value ++ [v] }) ∧
    ((row < 0 ∨ (b.rows : Int) ≤ row ∨ col < 0 ∨ (b.cols : Int) ≤ col) →
      b.add row col v = .error .indexError) := by
  intro b row col v
  constructor
  · intro h
    rw [COO.add, if_pos h]
  · intro h
    rw [COO.add, if_neg (by omega)]

/-- Witness for C8: an in-range append and an out-of-range rejection on an
empty 2×2 builder. -/
theorem C8_witness :
    (COO.empty 2 2).add 0 1 5 = .ok { COO.empty 2 2 with
        row_idx := (COO.empty 2 2).row_idx ++ [(0 : Int).toNat],
        col_idx := (COO.empty 2 2).col_idx ++ [(1 : Int).toNat],
        value := (COO.empty 2 2).value ++ [5] } ∧
    (COO.empty 2 2).add 2 0 5 = .error .indexError :=
  ⟨(C8_add_bounds (COO.empty 2 2) 0 1 5).1 (by decide),
   (C8_add_bounds (COO.empty 2 2) 2 0 5).2 (by decide)⟩

/-- C10: the notebook's `*` operator and `dot` method agree on every pair of
stores and both are the matrix product; at the tutorial store both give the
dense result with (1,1)=9, (2,1)=4, (3,0)=2, which differs from
`A.multiply(A)`. -/
theorem C10_star_dot_agree :
    (∀ A B : CSR, A.star B = A.dot B ∧ A.star B = A.matmul B) ∧
    (∃ C, tutA.star tutA = .ok C ∧ C.to_dense = tutAA) ∧
    (∃ C, tutA.dot tutA = .ok C ∧ C.to_dense = tutAA) ∧
    (∃ D, tutA.elementwise_multiply tutA = .ok D ∧ D.to_dense ≠ tutAA) := by
  refine ⟨fun A B => ⟨rfl, rfl⟩, ⟨_, rfl, by decide⟩, ⟨_, rfl, by decide⟩,
    ⟨_, rfl, by decide⟩⟩

end Sparse
